import Mathlib

/-
Verification of the vertex-overlap analyzer and the face-selection
materializer of the GS Model Helper add-on (src/__init__.py).

The two operators with algorithmic content are embedded as pure
functions:

  analyze      models OBJECT_OT_check_vertex_overlaps.execute
               (lines 389-441): for every vertex, the names of the
               vertex groups holding it with weight strictly above 0
               are collected, sorted, and every size-2 combination is
               accumulated into a dict from name pairs to vertex-index
               sets; each dict entry is then rendered into a list item
               holding a label string, a count and a comma-joined
               ascending vertex string.

  materialize  models OBJECT_OT_select_overlap_vertices.execute
               (lines 450-514): the vertex strings of all checked list
               items are parsed and unioned, and every face with at
               least one loop vertex in the union is selected.

Weights are embedded as rationals (the only operation used on them is
the strict comparison with 0), vertex indices as naturals equal to the
vertex's position in the mesh's vertex sequence (Blender's v.index),
the insertion-ordered Python dict as an association list updated in
place, and Python string sorting as an insertion sort under the
code-point lexicographic order.  Host-side validation (active object,
mode switching, UI redraw) is outside the embedded core.
-/

/-- Lexicographic comparison of character lists by code point, the
order Python uses to sort group-name strings. -/
def strLeAux : List Char → List Char → Bool
  | [], _ => true
  | _ :: _, [] => false
  | a :: as, b :: bs =>
    if a.toNat < b.toNat then true
    else if b.toNat < a.toNat then false
    else strLeAux as bs

/-- Code-point lexicographic order on strings, matching the comparison
used by the Python sorted builtin on group names. -/
def strLe (a b : String) : Bool := strLeAux a.data b.data

/-- One weighted group membership of a vertex: the group's index and
the stored weight, as yielded by v.groups in the source. -/
structure GroupEntry where
  group : Nat
  weight : Rat
deriving DecidableEq

/-- The mesh snapshot the analyzer reads: the group-name table indexed
by group index (obj.vertex_groups) and, for every vertex in index
order, its weighted group memberships (obj.data.vertices). -/
structure Mesh where
  vertexGroups : List String
  vertices : List (List GroupEntry)
deriving DecidableEq

/-- Names of the groups holding a vertex with weight strictly above
zero; the list comprehension on line 417 of the source. -/
def activeGroupNames (m : Mesh) (gs : List GroupEntry) : List String :=
  (gs.filter (fun g => decide (0 < g.weight))).map
    (fun g => m.vertexGroups.getD g.group "")

/-- All size-2 combinations of a list in the order produced by
itertools.combinations: positions i before j with i strictly less. -/
def pairs {α : Type} : List α → List (α × α)
  | [] => []
  | x :: xs => xs.map (fun y => (x, y)) ++ pairs xs

abbrev GroupPair := String × String

/-- The analyzer's accumulator overlaps_map: an insertion-ordered
association list from group-name pairs to vertex-index lists standing
for the Python dict of sets on lines 408-423. -/
abbrev OverlapMap := List (GroupPair × List Nat)

/-- Adds a vertex index to a set of indices represented as a
duplicate-free list; models set.add on line 423. -/
def addIdx (vs : List Nat) (j : Nat) : List Nat :=
  if j ∈ vs then vs else vs ++ [j]

/-- Updates the accumulator at one key, creating the entry at the end
on first encounter; models lines 420-423 of the source. -/
def mapInsert (mp : OverlapMap) (k : GroupPair) (j : Nat) : OverlapMap :=
  match mp with
  | [] => [(k, [j])]
  | (k0, vs) :: rest =>
    if k0 = k then (k0, addIdx vs j) :: rest
    else (k0, vs) :: mapInsert rest k j

/-- First-match association lookup into the accumulator, the reading
counterpart of mapInsert. -/
def lookupOM : OverlapMap → GroupPair → Option (List Nat)
  | [], _ => none
  | (k0, vs) :: rest, k => if k0 = k then some vs else lookupOM rest k

/-- The sorted group-name pairs one vertex contributes, lines 417-419:
sorted(groups) followed by itertools.combinations(.., 2), guarded by
len(groups) greater than 1. -/
def vertexPairs (m : Mesh) (gs : List GroupEntry) : List GroupPair :=
  let groups := activeGroupNames m gs
  if 1 < groups.length then
    pairs (List.insertionSort (fun a b => strLe a b = true) groups)
  else []

/-- Folds one vertex's contributed pairs into the accumulator; the body
of the vertex loop, lines 417-423. -/
def processVertex (m : Mesh) (acc : OverlapMap) (iv : Nat × List GroupEntry) :
    OverlapMap :=
  (vertexPairs m iv.2).foldl (fun a p => mapInsert a p iv.1) acc

/-- The vertex scan of lines 412-423: vertices are visited in index
order, the running index being Blender's v.index. -/
def scanVerts (m : Mesh) : List (List GroupEntry) → Nat → OverlapMap → OverlapMap
  | [], _, acc => acc
  | gs :: rest, i, acc => scanVerts m rest (i + 1) (processVertex m acc (i, gs))

/-- The finished overlaps_map after the whole vertex scan. -/
def overlapsMap (m : Mesh) : OverlapMap := scanVerts m m.vertices 0 []

/-- One row of scene.vertex_overlap_list: the VertexOverlapItem
property group of the source with its four fields. -/
structure VertexOverlapItem where
  groups : String
  count : Nat
  verts : String
  selected : Bool
deriving DecidableEq

/-- Renders one accumulator entry into a list item, lines 425-431:
unique_verts is the ascending sort of the entry's vertex set, the label
joins the two names around a plus sign, and the vertex string is the
comma-joined rendering of unique_verts. -/
def mkOverlapItem (k : GroupPair) (verts : List Nat) : VertexOverlapItem :=
  let uniqueVerts := List.insertionSort (fun a b => a ≤ b) verts
  { groups := k.1 ++ " + " ++ k.2
    count := uniqueVerts.length
    verts := String.intercalate "," (uniqueVerts.map (fun n => toString n))
    selected := false }

/-- Operator outcome: FINISHED for a completed run, CANCELLED for the
early returns that report a warning. -/
inductive OpStatus
  | finished
  | cancelled
deriving DecidableEq

/-- The analyzer operator, lines 389-441, applied to a mesh and to the
scene list left by the previous run: with no vertex groups it cancels
before the list is cleared, leaving the previous rows in place;
otherwise it replaces the list with one rendered row per accumulator
entry, in insertion order. -/
def analyze (m : Mesh) (prevList : List VertexOverlapItem) :
    OpStatus × List VertexOverlapItem :=
  if m.vertexGroups.isEmpty then (.cancelled, prevList)
  else (.finished, (overlapsMap m).map (fun p => mkOverlapItem p.1 p.2))

/-- A polygon of the mesh: its face index and the vertex indices of its
boundary loop, as exposed by bm.faces and f.verts. -/
structure Face where
  index : Nat
  verts : List Nat
deriving DecidableEq

/-- The distinct outcomes of the materializer: the three early warning
returns of lines 459-483 and the completed selection. -/
inductive MatSignal
  | noOverlaps
  | nothingSelected
  | emptyUnion
  | finished
deriving DecidableEq

/-- Parses one item's comma-joined vertex string as the loop on line
472 does: components that strip to empty are skipped, every other
component must parse as a number or the whole item is dropped by the
ValueError handler. -/
def parseVerts (s : String) : Option (List Nat) :=
  ((s.splitOn ",").filter (fun t => !t.trim.isEmpty)).mapM
    (fun t => t.trim.toNat?)

/-- One iteration of the collection loop of lines 467-475 over the
pair of the index union and the selected count. -/
def collectStep (acc : List Nat × Nat) (item : VertexOverlapItem) :
    List Nat × Nat :=
  if item.selected then
    if !item.verts.trim.isEmpty then
      match parseVerts item.verts with
      | some is => (is.foldl addIdx acc.1, acc.2 + 1)
      | none => (acc.1, acc.2 + 1)
    else (acc.1, acc.2 + 1)
  else acc

/-- The whole collection loop: the union of the parsed vertex indices
of the checked items, together with how many items are checked. -/
def collectIndices (overlapList : List VertexOverlapItem) : List Nat × Nat :=
  overlapList.foldl collectStep ([], 0)

/-- The union U of the chosen entries' vertex-index sets, as the
operator computes it into the indices variable. -/
def chosenUnion (overlapList : List VertexOverlapItem) : List Nat :=
  (collectIndices overlapList).1

/-- How many list items carry a set selected flag. -/
def selectedCount (overlapList : List VertexOverlapItem) : Nat :=
  (collectIndices overlapList).2

/-- The materializer operator, lines 450-514: empty table, no checked
item and empty union each cancel with their own warning; otherwise
every face with a loop vertex inside the union is selected and the
selection, as face indices in face order, is returned. -/
def materialize (faces : List Face) (overlapList : List VertexOverlapItem) :
    MatSignal × List Nat :=
  if overlapList.isEmpty then (.noOverlaps, [])
  else if selectedCount overlapList = 0 then (.nothingSelected, [])
  else if (chosenUnion overlapList).isEmpty then (.emptyUnion, [])
  else (.finished,
    (faces.filter (fun f =>
      f.verts.any (fun v => decide (v ∈ chosenUnion overlapList)))).map
      Face.index)

/-- Two keys carry the same unordered group-name pair when they agree
directly or with the components swapped. -/
def sameUnorderedPair (k1 k2 : GroupPair) : Prop :=
  (k1.1 = k2.1 ∧ k1.2 = k2.2) ∨ (k1.1 = k2.2 ∧ k1.2 = k2.1)

/- Facts about the code-point string order. -/

theorem strLeAux_total (as bs : List Char) :
    strLeAux as bs = true ∨ strLeAux bs as = true := by
  induction as generalizing bs with
  | nil => exact Or.inl rfl
  | cons a as ih =>
    cases bs with
    | nil => exact Or.inr rfl
    | cons b bs =>
      by_cases hab : a.toNat < b.toNat
      · left; simp [strLeAux, hab]
      · by_cases hba : b.toNat < a.toNat
        · right; simp [strLeAux, hba]
        · rcases ih bs with h | h
          · left; simp [strLeAux, hab, hba, h]
          · right; simp [strLeAux, hab, hba, h]

theorem strLeAux_trans (as bs cs : List Char)
    (h1 : strLeAux as bs = true) (h2 : strLeAux bs cs = true) :
    strLeAux as cs = true := by
  induction as generalizing bs cs with
  | nil => rfl
  | cons a as ih =>
    cases bs with
    | nil => simp [strLeAux] at h1
    | cons b bs =>
      cases cs with
      | nil => simp [strLeAux] at h2
      | cons c cs =>
        simp only [strLeAux] at h1 h2 ⊢
        by_cases hab : a.toNat < b.toNat
        · by_cases hbc : b.toNat < c.toNat
          · have : a.toNat < c.toNat := Nat.lt_trans hab hbc
            simp [this]
          · by_cases hcb : c.toNat < b.toNat
            · simp [hbc, hcb] at h2
            · have hbceq : b.toNat = c.toNat := Nat.le_antisymm (Nat.le_of_not_lt hcb) (Nat.le_of_not_lt hbc)
              have : a.toNat < c.toNat := hbceq ▸ hab
              simp [this]
        · by_cases hba : b.toNat < a.toNat
          · simp [hab, hba] at h1
          · have habeq : a.toNat = b.toNat := Nat.le_antisymm (Nat.le_of_not_lt hba) (Nat.le_of_not_lt hab)
            by_cases hbc : b.toNat < c.toNat
            · have : a.toNat < c.toNat := habeq ▸ hbc
              simp [this]
            · by_cases hcb : c.toNat < b.toNat
              · simp [hbc, hcb] at h2
              · have hbceq : b.toNat = c.toNat := Nat.le_antisymm (Nat.le_of_not_lt hcb) (Nat.le_of_not_lt hbc)
                have hac : ¬ a.toNat < c.toNat := by omega
                have hca : ¬ c.toNat < a.toNat := by omega
                simp only [hab, hba, if_neg, hbc, hcb] at h1 h2
                simp [hac, hca]
                exact ih bs cs h1 h2

theorem charToNat_inj {a b : Char} (h : a.toNat = b.toNat) : a = b := by
  have h1 := Char.ofNat_toNat a
  rw [h, Char.ofNat_toNat] at h1
  exact h1.symm

theorem strLeAux_antisymm (as bs : List Char)
    (h1 : strLeAux as bs = true) (h2 : strLeAux bs as = true) : as = bs := by
  induction as generalizing bs with
  | nil =>
    cases bs with
    | nil => rfl
    | cons b bs => simp [strLeAux] at h2
  | cons a as ih =>
    cases bs with
    | nil => simp [strLeAux] at h1
    | cons b bs =>
      simp only [strLeAux] at h1 h2
      by_cases hab : a.toNat < b.toNat
      · have hba : ¬ b.toNat < a.toNat := by omega
        simp [hab, hba] at h2
      · by_cases hba : b.toNat < a.toNat
        · simp [hab, hba] at h1
        · have habeq : a = b := charToNat_inj (Nat.le_antisymm (Nat.le_of_not_lt hba) (Nat.le_of_not_lt hab))
          simp only [hab, hba, if_neg] at h1 h2
          rw [habeq, ih bs h1 h2]

theorem strLe_total (a b : String) : strLe a b = true ∨ strLe b a = true :=
  strLeAux_total a.data b.data

theorem strLe_trans {a b c : String} (h1 : strLe a b = true)
    (h2 : strLe b c = true) : strLe a c = true :=
  strLeAux_trans a.data b.data c.data h1 h2

theorem strLe_antisymm {a b : String} (h1 : strLe a b = true)
    (h2 : strLe b a = true) : a = b :=
  String.ext (strLeAux_antisymm a.data b.data h1 h2)

instance : IsTotal String (fun a b => strLe a b = true) := ⟨strLe_total⟩

instance : IsTrans String (fun a b => strLe a b = true) :=
  ⟨fun _ _ _ => strLe_trans⟩

/- Facts about set insertion on index lists. -/

theorem mem_addIdx {vs : List Nat} {j i : Nat} :
    i ∈ addIdx vs j ↔ i ∈ vs ∨ i = j := by
  unfold addIdx
  by_cases h : j ∈ vs
  · simp only [if_pos h]
    constructor
    · exact Or.inl
    · rintro (hi | rfl)
      · exact hi
      · exact h
  · simp [if_neg h]

theorem addIdx_ne_nil (vs : List Nat) (j : Nat) : addIdx vs j ≠ [] := by
  unfold addIdx
  by_cases h : j ∈ vs
  · simp only [if_pos h]
    rintro rfl
    exact (List.not_mem_nil j) h
  · simp [if_neg h]

theorem addIdx_nodup {vs : List Nat} (h : vs.Nodup) (j : Nat) :
    (addIdx vs j).Nodup := by
  unfold addIdx
  by_cases hj : j ∈ vs
  · simpa [if_pos hj] using h
  · simp [if_neg hj, List.nodup_append, h, hj]

theorem addIdx_self_mem (vs : List Nat) (j : Nat) : j ∈ addIdx vs j :=
  mem_addIdx.mpr (Or.inr rfl)

theorem addIdx_idem (vs : List Nat) (j : Nat) :
    addIdx (addIdx vs j) j = addIdx vs j := by
  unfold addIdx
  by_cases h : j ∈ vs
  · simp [if_pos h]
  · simp [if_neg h]

/- Facts about the accumulator update and lookup. -/

theorem lookupOM_mapInsert (mp : OverlapMap) (k : GroupPair) (j : Nat)
    (k' : GroupPair) :
    lookupOM (mapInsert mp k j) k' =
      if k' = k then some (addIdx ((lookupOM mp k).getD []) j)
      else lookupOM mp k' := by
  induction mp with
  | nil =>
    by_cases h : k' = k
    · subst h; simp [mapInsert, lookupOM, addIdx]
    · have h2 : ¬ k = k' := fun hh => h hh.symm
      simp [mapInsert, lookupOM, h, h2]
  | cons e rest ih =>
    obtain ⟨k0, vs0⟩ := e
    by_cases h0 : k0 = k
    · subst h0
      by_cases h : k' = k0
      · subst h
        simp [mapInsert, lookupOM]
      · have h2 : ¬ k0 = k' := fun hh => h hh.symm
        simp [mapInsert, lookupOM, h, h2]
    · by_cases h : k' = k0
      · subst h
        have hne : k' ≠ k := fun hh => h0 (hh.symm ▸ rfl)
        simp [mapInsert, lookupOM, h0, hne]
      · have h2 : ¬ k0 = k' := fun hh => h hh.symm
        simp [mapInsert, lookupOM, h0, h2, ih]

theorem mem_getD_lookupOM {mp : OverlapMap} {k : GroupPair} {j : Nat} :
    j ∈ (lookupOM mp k).getD [] ↔
      ∃ vs, lookupOM mp k = some vs ∧ j ∈ vs := by
  cases h : lookupOM mp k with
  | none => simp [h]
  | some vs => simp [h]

theorem lookupOM_foldl_mapInsert (ps : List GroupPair) (acc : OverlapMap)
    (j : Nat) (k : GroupPair) :
    lookupOM (ps.foldl (fun a p => mapInsert a p j) acc) k =
      if k ∈ ps then some (addIdx ((lookupOM acc k).getD []) j)
      else lookupOM acc k := by
  induction ps generalizing acc with
  | nil => simp
  | cons p ps ih =>
    rw [List.foldl_cons, ih]
    by_cases hps : k ∈ ps
    · by_cases hkp : k = p
      · subst hkp
        rw [lookupOM_mapInsert]
        simp [hps, addIdx_idem]
      · rw [lookupOM_mapInsert]
        simp [hps, hkp, List.mem_cons]
    · by_cases hkp : k = p
      · subst hkp
        rw [lookupOM_mapInsert]
        simp [hps, List.mem_cons]
      · rw [lookupOM_mapInsert]
        simp [hps, hkp, List.mem_cons]

theorem lookupOM_processVertex (m : Mesh) (acc : OverlapMap)
    (i : Nat) (gs : List GroupEntry) (k : GroupPair) :
    lookupOM (processVertex m acc (i, gs)) k =
      if k ∈ vertexPairs m gs then some (addIdx ((lookupOM acc k).getD []) i)
      else lookupOM acc k := by
  unfold processVertex
  exact lookupOM_foldl_mapInsert (vertexPairs m gs) acc i k

/-- Membership in the accumulator built by the vertex scan, relative to
a start index and a start accumulator. -/
theorem lookupOM_scanVerts_mem (m : Mesh) (vl : List (List GroupEntry))
    (i : Nat) (acc : OverlapMap) (k : GroupPair) (j : Nat) :
    (∃ vs, lookupOM (scanVerts m vl i acc) k = some vs ∧ j ∈ vs) ↔
      ((∃ vs, lookupOM acc k = some vs ∧ j ∈ vs) ∨
        (∃ t gs, vl.get? t = some gs ∧ j = i + t ∧ k ∈ vertexPairs m gs)) := by
  induction vl generalizing i acc with
  | nil =>
    simp [scanVerts]
  | cons gs0 rest ih =>
    rw [scanVerts, ih]
    constructor
    · rintro (⟨vs, hvs, hj⟩ | ⟨t, gs, hget, hj, hk⟩)
      · rw [lookupOM_processVertex] at hvs
        by_cases hk0 : k ∈ vertexPairs m gs0
        · rw [if_pos hk0] at hvs
          obtain rfl : addIdx ((lookupOM acc k).getD []) i = vs := by
            injection hvs
          rcases mem_addIdx.mp hj with hjin | rfl
          · rcases mem_getD_lookupOM.mp hjin with ⟨vs0, hvs0, hjvs0⟩
            exact Or.inl ⟨vs0, hvs0, hjvs0⟩
          · exact Or.inr ⟨0, gs0, by simp, by omega, hk0⟩
        · rw [if_neg hk0] at hvs
          exact Or.inl ⟨vs, hvs, hj⟩
      · exact Or.inr ⟨t + 1, gs, by simpa using hget, by omega, hk⟩
    · rintro (⟨vs, hvs, hj⟩ | ⟨t, gs, hget, hj, hk⟩)
      · left
        rw [lookupOM_processVertex]
        by_cases hk0 : k ∈ vertexPairs m gs0
        · refine ⟨_, by rw [if_pos hk0], ?_⟩
          exact mem_addIdx.mpr (Or.inl (mem_getD_lookupOM.mpr ⟨vs, hvs, hj⟩))
        · exact ⟨vs, by rw [if_neg hk0]; exact hvs, hj⟩
      · cases t with
        | zero =>
          obtain rfl : gs0 = gs := by simpa using hget
          left
          rw [lookupOM_processVertex, if_pos hk]
          refine ⟨_, rfl, ?_⟩
          have : j = i := by omega
          subst this
          exact addIdx_self_mem _ _
        | succ t =>
          right
          exact ⟨t, gs, by simpa using hget, by omega, hk⟩

/-- Membership characterization of the finished accumulator: index j
sits in the entry keyed k exactly when vertex j of the mesh contributes
the pair k. -/
theorem lookupOM_overlapsMap_mem (m : Mesh) (k : GroupPair) (j : Nat) :
    (∃ vs, lookupOM (overlapsMap m) k = some vs ∧ j ∈ vs) ↔
      ∃ gs, m.vertices.get? j = some gs ∧ k ∈ vertexPairs m gs := by
  unfold overlapsMap
  rw [lookupOM_scanVerts_mem]
  constructor
  · rintro (⟨vs, hvs, hj⟩ | ⟨t, gs, hget, hj, hk⟩)
    · exact absurd hvs (by simp [lookupOM])
    · obtain rfl : j = t := by omega
      exact ⟨gs, hget, hk⟩
  · rintro ⟨gs, hget, hk⟩
    exact Or.inr ⟨j, gs, hget, by omega, hk⟩

/- Keys of the accumulator. -/

theorem keys_mapInsert (mp : OverlapMap) (k : GroupPair) (j : Nat) :
    (mapInsert mp k j).map Prod.fst =
      if k ∈ mp.map Prod.fst then mp.map Prod.fst
      else mp.map Prod.fst ++ [k] := by
  induction mp with
  | nil => simp [mapInsert]
  | cons e rest ih =>
    obtain ⟨k0, vs0⟩ := e
    by_cases h0 : k0 = k
    · subst h0
      simp [mapInsert]
    · have hne : ¬ k = k0 := fun hh => h0 hh.symm
      simp only [mapInsert, if_neg h0, List.map_cons, List.mem_cons, hne,
        false_or, ih]
      by_cases hk : k ∈ rest.map Prod.fst
      · simp [hk]
      · simp [hk]

theorem keysNodup_mapInsert {mp : OverlapMap} (h : (mp.map Prod.fst).Nodup)
    (k : GroupPair) (j : Nat) : ((mapInsert mp k j).map Prod.fst).Nodup := by
  rw [keys_mapInsert]
  by_cases hk : k ∈ mp.map Prod.fst
  · simpa [hk] using h
  · rw [if_neg hk, List.nodup_append]
    refine ⟨h, List.nodup_singleton k, ?_⟩
    intro a ha hak
    rw [List.mem_singleton] at hak
    subst hak
    exact hk ha

theorem keysNodup_foldl_mapInsert (ps : List GroupPair) (acc : OverlapMap)
    (j : Nat) (h : (acc.map Prod.fst).Nodup) :
    ((ps.foldl (fun a p => mapInsert a p j) acc).map Prod.fst).Nodup := by
  induction ps generalizing acc with
  | nil => simpa using h
  | cons p ps ih =>
    rw [List.foldl_cons]
    exact ih _ (keysNodup_mapInsert h p j)

theorem keysNodup_scanVerts (m : Mesh) (vl : List (List GroupEntry))
    (i : Nat) (acc : OverlapMap) (h : (acc.map Prod.fst).Nodup) :
    ((scanVerts m vl i acc).map Prod.fst).Nodup := by
  induction vl generalizing i acc with
  | nil => simpa [scanVerts] using h
  | cons gs rest ih =>
    rw [scanVerts]
    exact ih _ _ (keysNodup_foldl_mapInsert _ _ _ h)

theorem keysNodup_overlapsMap (m : Mesh) :
    ((overlapsMap m).map Prod.fst).Nodup :=
  keysNodup_scanVerts m m.vertices 0 [] (by simp)

/- Entry membership versus lookup. -/

theorem mem_iff_lookupOM {mp : OverlapMap}
    (hnd : (mp.map Prod.fst).Nodup) (k : GroupPair) (vs : List Nat) :
    (k, vs) ∈ mp ↔ lookupOM mp k = some vs := by
  induction mp with
  | nil => simp [lookupOM]
  | cons e rest ih =>
    obtain ⟨k0, vs0⟩ := e
    simp only [List.map_cons, List.nodup_cons] at hnd
    by_cases h0 : k0 = k
    · subst h0
      rw [lookupOM, if_pos rfl]
      simp only [List.mem_cons, Option.some_inj, Prod.mk.injEq, true_and]
      constructor
      · rintro (rfl | hm)
        · rfl
        · exact absurd (List.mem_map.mpr ⟨(k0, vs), hm, rfl⟩) hnd.1
      · rintro rfl
        exact Or.inl rfl
    · rw [lookupOM, if_neg h0, ← ih hnd.2]
      simp only [List.mem_cons, Prod.mk.injEq]
      constructor
      · rintro (⟨h1, h2⟩ | hm)
        · exact absurd h1.symm h0
        · exact hm
      · exact Or.inr

/- Invariants carried by every entry of the accumulator. -/

theorem forall_entries_mapInsert {P : GroupPair × List Nat → Prop}
    {mp : OverlapMap} {k : GroupPair} {j : Nat}
    (hmp : ∀ e ∈ mp, P e)
    (hupd : ∀ k' vs, P (k', vs) → P (k', addIdx vs j))
    (hnew : P (k, [j])) :
    ∀ e ∈ mapInsert mp k j, P e := by
  induction mp with
  | nil =>
    intro e he
    simp only [mapInsert, List.mem_singleton] at he
    subst he
    exact hnew
  | cons e0 rest ih =>
    obtain ⟨k0, vs0⟩ := e0
    simp only [List.forall_mem_cons] at hmp
    intro e he
    simp only [mapInsert] at he
    by_cases h0 : k0 = k
    · rw [if_pos h0] at he
      rcases List.mem_cons.mp he with rfl | hm
      · exact hupd k0 vs0 hmp.1
      · exact hmp.2 e hm
    · rw [if_neg h0] at he
      rcases List.mem_cons.mp he with rfl | hm
      · exact hmp.1
      · exact ih hmp.2 e hm

theorem forall_entries_foldl_mapInsert {P : GroupPair × List Nat → Prop}
    (ps : List GroupPair) (acc : OverlapMap) (j : Nat)
    (hacc : ∀ e ∈ acc, P e)
    (hupd : ∀ k' vs, P (k', vs) → P (k', addIdx vs j))
    (hnew : ∀ p ∈ ps, P (p, [j])) :
    ∀ e ∈ ps.foldl (fun a p => mapInsert a p j) acc, P e := by
  induction ps generalizing acc with
  | nil => simpa using hacc
  | cons p ps ih =>
    rw [List.foldl_cons]
    simp only [List.forall_mem_cons] at hnew
    exact ih _ (forall_entries_mapInsert hacc hupd hnew.1) hnew.2

theorem forall_entries_scanVerts {P : GroupPair × List Nat → Prop}
    (m : Mesh) (vl : List (List GroupEntry)) (i : Nat) (acc : OverlapMap)
    (hacc : ∀ e ∈ acc, P e)
    (hupd : ∀ j k' vs, P (k', vs) → P (k', addIdx vs j))
    (hnew : ∀ j gs, ∀ p ∈ vertexPairs m gs, P (p, [j])) :
    ∀ e ∈ scanVerts m vl i acc, P e := by
  induction vl generalizing i acc with
  | nil => simpa [scanVerts] using hacc
  | cons gs rest ih =>
    rw [scanVerts]
    exact ih _ _ (forall_entries_foldl_mapInsert _ _ _ hacc (hupd i) (hnew i gs))

/- Facts about size-2 combinations. -/

theorem sublist_of_mem_pairs {α : Type} {a b : α} {l : List α}
    (h : (a, b) ∈ pairs l) : [a, b].Sublist l := by
  induction l with
  | nil => simp [pairs] at h
  | cons x xs ih =>
    simp only [pairs, List.mem_append] at h
    rcases h with hmap | hrec
    · rcases List.mem_map.mp hmap with ⟨y, hy, he⟩
      obtain ⟨rfl, rfl⟩ : x = a ∧ y = b := by
        constructor
        · exact congrArg Prod.fst he
        · exact congrArg Prod.snd he
      exact List.cons_sublist_cons.mpr (List.singleton_sublist.mpr hy)
    · exact (ih hrec).cons x

theorem mem_pairs_of_sorted {α : Type} {r : α → α → Prop} {a b : α}
    {l : List α} (hs : List.Sorted r l) (ha : a ∈ l) (hb : b ∈ l)
    (hab : r a b) (hnba : ¬ r b a) : (a, b) ∈ pairs l := by
  induction l with
  | nil => simp at ha
  | cons x xs ih =>
    rw [List.sorted_cons] at hs
    simp only [pairs, List.mem_append]
    rcases List.mem_cons.mp ha with rfl | hax
    · rcases List.mem_cons.mp hb with heq | hbx
      · exact absurd hab (heq ▸ hnba)
      · exact Or.inl (List.mem_map.mpr ⟨b, hbx, rfl⟩)
    · rcases List.mem_cons.mp hb with rfl | hbx
      · exact absurd (hs.1 a hax) hnba
      · exact Or.inr (ih hs.2 hax hbx)

theorem pairs_eq_nil_of_short {α : Type} {l : List α}
    (h : l.length ≤ 1) : pairs l = [] := by
  cases l with
  | nil => rfl
  | cons x xs =>
    cases xs with
    | nil => rfl
    | cons y ys => simp at h

theorem fst_mem_of_mem_pairs {α : Type} {a b : α} {l : List α}
    (h : (a, b) ∈ pairs l) : a ∈ l :=
  (sublist_of_mem_pairs h).subset (by simp)

theorem snd_mem_of_mem_pairs {α : Type} {a b : α} {l : List α}
    (h : (a, b) ∈ pairs l) : b ∈ l :=
  (sublist_of_mem_pairs h).subset (by simp)

theorem pairs_nodup {α : Type} {l : List α} (h : l.Nodup) :
    (pairs l).Nodup := by
  induction l with
  | nil => simp [pairs]
  | cons x xs ih =>
    rw [List.nodup_cons] at h
    simp only [pairs]
    rw [List.nodup_append]
    refine ⟨?_, ih h.2, ?_⟩
    · exact h.2.map (fun y z he => congrArg Prod.snd he)
    · intro p hp hp2
      rcases List.mem_map.mp hp with ⟨y, _, rfl⟩
      exact h.1 (fst_mem_of_mem_pairs hp2)

theorem one_lt_length_of_two_mem {α : Type} {a b : α} {l : List α}
    (ha : a ∈ l) (hb : b ∈ l) (hne : a ≠ b) : 1 < l.length := by
  cases l with
  | nil => simp at ha
  | cons x t =>
    cases t with
    | nil =>
      simp only [List.mem_singleton] at ha hb
      exact absurd (ha.trans hb.symm) hne
    | cons y t2 => simp

/- Facts about the pairs one vertex contributes. -/

theorem vertexPairs_ordered (m : Mesh) (gs : List GroupEntry) :
    ∀ p ∈ vertexPairs m gs, strLe p.1 p.2 = true := by
  intro p hp
  unfold vertexPairs at hp
  by_cases hlen : 1 < (activeGroupNames m gs).length
  · rw [if_pos hlen] at hp
    obtain ⟨a, b⟩ := p
    have hsub := sublist_of_mem_pairs hp
    have hsorted := List.sorted_insertionSort
      (fun x y => strLe x y = true) (activeGroupNames m gs)
    have h2 := hsorted.sublist hsub
    exact (List.pairwise_cons.mp h2).1 b (by simp)
  · rw [if_neg hlen] at hp
    simp at hp

theorem vertexPairs_eq_nil (m : Mesh) (gs : List GroupEntry)
    (h : (activeGroupNames m gs).length < 2) : vertexPairs m gs = [] := by
  unfold vertexPairs
  rw [if_neg (by omega)]

theorem mem_vertexPairs (m : Mesh) (gs : List GroupEntry) {a b : String}
    (ha : a ∈ activeGroupNames m gs) (hb : b ∈ activeGroupNames m gs)
    (hle : strLe a b = true) (hne : a ≠ b) : (a, b) ∈ vertexPairs m gs := by
  unfold vertexPairs
  rw [if_pos (one_lt_length_of_two_mem ha hb hne)]
  have hperm := List.perm_insertionSort
    (fun x y => strLe x y = true) (activeGroupNames m gs)
  have hsorted := List.sorted_insertionSort
    (fun x y => strLe x y = true) (activeGroupNames m gs)
  refine mem_pairs_of_sorted hsorted (hperm.mem_iff.mpr ha)
    (hperm.mem_iff.mpr hb) hle ?_
  intro hba
  exact hne (strLe_antisymm hle hba)

theorem vertexPairs_mem_active (m : Mesh) (gs : List GroupEntry) :
    ∀ p ∈ vertexPairs m gs,
      p.1 ∈ activeGroupNames m gs ∧ p.2 ∈ activeGroupNames m gs := by
  intro p hp
  unfold vertexPairs at hp
  by_cases hlen : 1 < (activeGroupNames m gs).length
  · rw [if_pos hlen] at hp
    obtain ⟨a, b⟩ := p
    have hperm := List.perm_insertionSort
      (fun x y => strLe x y = true) (activeGroupNames m gs)
    exact ⟨hperm.mem_iff.mp (fst_mem_of_mem_pairs hp),
      hperm.mem_iff.mp (snd_mem_of_mem_pairs hp)⟩
  · rw [if_neg hlen] at hp
    simp at hp

theorem vertexPairs_distinct_of_nodup (m : Mesh) (gs : List GroupEntry)
    (hnd : (activeGroupNames m gs).Nodup) :
    ∀ p ∈ vertexPairs m gs, p.1 ≠ p.2 := by
  intro p hp
  unfold vertexPairs at hp
  by_cases hlen : 1 < (activeGroupNames m gs).length
  · rw [if_pos hlen] at hp
    obtain ⟨a, b⟩ := p
    have hsub := sublist_of_mem_pairs hp
    have hnd2 : (List.insertionSort (fun x y => strLe x y = true)
        (activeGroupNames m gs)).Nodup :=
      (List.perm_insertionSort _ _).nodup_iff.mpr hnd
    have h2 := hnd2.sublist hsub
    rw [List.nodup_cons] at h2
    intro he
    have heq : a = b := he
    exact h2.1 (by rw [heq]; exact List.mem_singleton.mpr rfl)
  · rw [if_neg hlen] at hp
    simp at hp

theorem vertexPairs_nodup_of_nodup (m : Mesh) (gs : List GroupEntry)
    (hnd : (activeGroupNames m gs).Nodup) : (vertexPairs m gs).Nodup := by
  unfold vertexPairs
  by_cases hlen : 1 < (activeGroupNames m gs).length
  · rw [if_pos hlen]
    exact pairs_nodup ((List.perm_insertionSort _ _).nodup_iff.mpr hnd)
  · rw [if_neg hlen]
    exact List.nodup_nil

/- Invariants of the finished accumulator. -/

theorem overlapsMap_entries (m : Mesh) :
    ∀ e ∈ overlapsMap m,
      e.2 ≠ [] ∧ e.2.Nodup ∧ strLe e.1.1 e.1.2 = true := by
  apply forall_entries_scanVerts
    (P := fun e => e.2 ≠ [] ∧ e.2.Nodup ∧ strLe e.1.1 e.1.2 = true)
  · simp
  · intro j k' vs h
    exact ⟨addIdx_ne_nil vs j, addIdx_nodup h.2.1 j, h.2.2⟩
  · intro j gs p hp
    exact ⟨by simp, List.nodup_singleton j, vertexPairs_ordered m gs p hp⟩

/- Unfolding the analyzer on a mesh that has vertex groups. -/

theorem analyze_of_groups (m : Mesh) (prevList : List VertexOverlapItem)
    (hg : m.vertexGroups ≠ []) :
    analyze m prevList =
      (.finished, (overlapsMap m).map (fun p => mkOverlapItem p.1 p.2)) := by
  unfold analyze
  rw [if_neg (by simpa [List.isEmpty_iff] using hg)]

/- The ascending sort used for rendering is strictly increasing on a
duplicate-free index list. -/

theorem sorted_lt_insertionSort (vs : List Nat) (h : vs.Nodup) :
    List.Sorted (fun a b => a < b) (List.insertionSort (fun a b => a ≤ b) vs) := by
  have hs := List.sorted_insertionSort (fun a b : Nat => a ≤ b) vs
  have hnd : (List.insertionSort (fun a b : Nat => a ≤ b) vs).Nodup :=
    (List.perm_insertionSort _ _).nodup_iff.mpr h
  exact (hs.and hnd).imp (fun hab => lt_of_le_of_ne hab.1 hab.2)

/- Facts about the materializer's collection loop. -/

theorem collectStep_snd (acc : List Nat × Nat) (item : VertexOverlapItem) :
    (collectStep acc item).2 =
      if item.selected then acc.2 + 1 else acc.2 := by
  cases hs : item.selected with
  | false => unfold collectStep; rw [hs]; simp
  | true =>
    unfold collectStep
    rw [hs]
    simp only [if_true]
    by_cases ht : (!item.verts.trim.isEmpty) = true
    · rw [if_pos ht]
      cases hp : parseVerts item.verts <;> simp
    · rw [if_neg ht]

theorem collectStep_unselected (acc : List Nat × Nat)
    (item : VertexOverlapItem) (hs : item.selected = false) :
    collectStep acc item = acc := by
  unfold collectStep
  rw [hs]
  simp

theorem collectStep_snd_le (acc : List Nat × Nat) (item : VertexOverlapItem) :
    acc.2 ≤ (collectStep acc item).2 := by
  rw [collectStep_snd]
  by_cases hs : item.selected = true
  · simp [hs]
  · simp [hs]

theorem collect_foldl_snd_le (overlapList : List VertexOverlapItem) :
    ∀ acc : List Nat × Nat,
      acc.2 ≤ (overlapList.foldl collectStep acc).2 := by
  induction overlapList with
  | nil => intro acc; simp
  | cons item rest ih =>
    intro acc
    rw [List.foldl_cons]
    exact le_trans (collectStep_snd_le acc item) (ih _)

theorem collect_foldl_fst_of_snd_eq (overlapList : List VertexOverlapItem) :
    ∀ acc : List Nat × Nat,
      (overlapList.foldl collectStep acc).2 = acc.2 →
      (overlapList.foldl collectStep acc).1 = acc.1 := by
  induction overlapList with
  | nil => intro acc _; simp
  | cons item rest ih =>
    intro acc hsnd
    rw [List.foldl_cons] at hsnd ⊢
    have h1 : acc.2 ≤ (collectStep acc item).2 := collectStep_snd_le acc item
    have h2 : (collectStep acc item).2 ≤ (rest.foldl collectStep (collectStep acc item)).2 :=
      collect_foldl_snd_le rest _
    have heq : (collectStep acc item).2 = acc.2 := by omega
    have hstep : collectStep acc item = acc := by
      rw [collectStep_snd] at heq
      by_cases hs : item.selected = true
      · rw [if_pos hs] at heq; omega
      · exact collectStep_unselected acc item (by simpa using hs)
    rw [hstep] at hsnd ⊢
    exact ih acc hsnd

theorem chosenUnion_eq_nil_of_count_zero (overlapList : List VertexOverlapItem)
    (h : selectedCount overlapList = 0) : chosenUnion overlapList = [] := by
  unfold chosenUnion collectIndices
  unfold selectedCount collectIndices at h
  exact collect_foldl_fst_of_snd_eq overlapList ([], 0) h

theorem selectedCount_zero_of_unselected (overlapList : List VertexOverlapItem)
    (h : ∀ item ∈ overlapList, item.selected = false) :
    selectedCount overlapList = 0 := by
  unfold selectedCount collectIndices
  have : ∀ acc : List Nat × Nat, overlapList.foldl collectStep acc = acc := by
    induction overlapList with
    | nil => intro acc; simp
    | cons item rest ih =>
      intro acc
      rw [List.foldl_cons,
        collectStep_unselected acc item (h item (by simp)),
        ih (fun it hit => h it (by simp [hit]))]
  rw [this ([], 0)]

/- Concrete inputs used by witnesses and counterexamples. -/

/-- The worked example of the specification: groups Hip, Spine, Tail;
vertex 0 active in Hip and Spine, vertex 1 in Hip only, vertex 2 in
Spine and Tail, vertex 3 in nothing. -/
def exampleMesh : Mesh :=
  { vertexGroups := ["Hip", "Spine", "Tail"]
    vertices := [[⟨0, 1⟩, ⟨1, 1⟩], [⟨0, 1⟩], [⟨1, 1⟩, ⟨2, 1⟩], []] }

/-- A mesh with one weighted vertex but an empty group table. -/
def noGroupsMesh : Mesh := { vertexGroups := [], vertices := [[⟨0, 1⟩]] }

/-- A mesh whose two distinct group indices carry the same display
name, with one vertex weighted in both. -/
def dupNameMesh : Mesh :=
  { vertexGroups := ["A", "A"], vertices := [[⟨0, 1⟩, ⟨1, 1⟩]] }

/-- A list row as a previous analysis could have left it, unchecked. -/
def staleItem : VertexOverlapItem :=
  { groups := "Hip + Spine", count := 1, verts := "0", selected := false }

/-- The canonically ordered key of an unordered pair of group names:
the two names in the code-point order the sorted builtin gives them. -/
def canonicalPair (a b : String) : GroupPair :=
  if strLe a b = true then (a, b) else (b, a)

/- ------------------------------------------------------------------ -/
/- Claim C1.                                                          -/
/- ------------------------------------------------------------------ -/

/-- C1: for every face list and every overlap-entry list, the face set
returned by materialize contains a face index exactly when some face of
the list carries that index and has at least one boundary-loop vertex
inside the union of the chosen entries' vertex-index sets; no false
positives and no false negatives, in every branch of the operator. -/
theorem materialize_face_iff_loop_vertex_in_union
    (faces : List Face) (overlapList : List VertexOverlapItem) (fIdx : Nat) :
    fIdx ∈ (materialize faces overlapList).2 ↔
      ∃ fa ∈ faces, fa.index = fIdx ∧
        ∃ v ∈ fa.verts, v ∈ chosenUnion overlapList := by
  unfold materialize
  by_cases hL : overlapList.isEmpty
  · rw [if_pos hL]
    obtain rfl : overlapList = [] := List.isEmpty_iff.mp hL
    have hu : chosenUnion [] = [] := rfl
    simp [hu]
  · rw [if_neg hL]
    by_cases hc : selectedCount overlapList = 0
    · rw [if_pos hc]
      have hu := chosenUnion_eq_nil_of_count_zero overlapList hc
      simp [hu]
    · rw [if_neg hc]
      by_cases hi : (chosenUnion overlapList).isEmpty
      · rw [if_pos hi]
        have hu := List.isEmpty_iff.mp hi
        simp [hu]
      · rw [if_neg hi]
        simp only [List.mem_map, List.mem_filter, List.any_eq_true,
          decide_eq_true_iff]
        constructor
        · rintro ⟨fa, ⟨hfa, v, hv, hvu⟩, rfl⟩
          exact ⟨fa, hfa, rfl, v, hv, hvu⟩
        · rintro ⟨fa, hfa, rfl, v, hv, hvu⟩
          exact ⟨fa, ⟨hfa, v, hv, hvu⟩, rfl⟩

/- ------------------------------------------------------------------ -/
/- Claim C3.                                                          -/
/- ------------------------------------------------------------------ -/

/-- C3 counterexample: on a mesh with zero weight groups the analyzer
does not return an empty result sequence as a successful result; it
cancels and the previous, non-empty scene list survives untouched. -/
theorem analyze_zero_groups_counterexample :
    analyze noGroupsMesh [staleItem] = (OpStatus.cancelled, [staleItem]) ∧
    OpStatus.cancelled ≠ OpStatus.finished ∧
    ([staleItem] : List VertexOverlapItem) ≠ [] :=
  ⟨rfl, by decide, by decide⟩

/-- C3 amended: with zero weight groups the analyzer reports a warning
and cancels before the scene list is cleared, leaving the previous
result rows unchanged; no scan runs and no empty table is produced. -/
theorem analyze_zero_groups_cancels (m : Mesh)
    (prevList : List VertexOverlapItem) (hg : m.vertexGroups = []) :
    analyze m prevList = (OpStatus.cancelled, prevList) := by
  unfold analyze
  rw [if_pos (by simp [hg])]

/-- Witness for the amended C3 at the concrete zero-group mesh. -/
theorem analyze_zero_groups_cancels_witness :
    noGroupsMesh.vertexGroups = [] ∧
    analyze noGroupsMesh [staleItem] = (OpStatus.cancelled, [staleItem]) :=
  ⟨rfl, analyze_zero_groups_cancels noGroupsMesh [staleItem] rfl⟩

/- ------------------------------------------------------------------ -/
/- Claim C7.                                                          -/
/- ------------------------------------------------------------------ -/

/-- C7 counterexample: invoking the materializer with zero entries
flagged selected does not always raise the nothing-selected signal;
with an empty entry table, which also has zero flagged entries, the
distinct no-overlaps signal is raised instead. -/
theorem materialize_empty_table_counterexample :
    selectedCount ([] : List VertexOverlapItem) = 0 ∧
    materialize [] [] = (MatSignal.noOverlaps, []) ∧
    MatSignal.noOverlaps ≠ MatSignal.nothingSelected :=
  ⟨rfl, rfl, by decide⟩

/-- C7 amended: when the entry table is non-empty and zero entries are
flagged selected, the materializer returns an empty face set with the
nothing-selected signal, a signal distinct from the no-overlaps signal,
from the empty-union signal and from the finished signal. -/
theorem materialize_nothing_selected (faces : List Face)
    (overlapList : List VertexOverlapItem) (hne : overlapList ≠ [])
    (hsel : ∀ item ∈ overlapList, item.selected = false) :
    materialize faces overlapList = (MatSignal.nothingSelected, []) ∧
    MatSignal.nothingSelected ≠ MatSignal.noOverlaps ∧
    MatSignal.nothingSelected ≠ MatSignal.emptyUnion ∧
    MatSignal.nothingSelected ≠ MatSignal.finished := by
  refine ⟨?_, by decide, by decide, by decide⟩
  unfold materialize
  rw [if_neg (by simpa [List.isEmpty_iff] using hne),
    if_pos (selectedCount_zero_of_unselected overlapList hsel)]

/-- Witness for the amended C7: one unchecked row, one face. -/
theorem materialize_nothing_selected_witness :
    ([staleItem] : List VertexOverlapItem) ≠ [] ∧
    materialize [⟨0, [0, 1, 2]⟩] [staleItem] =
      (MatSignal.nothingSelected, []) :=
  ⟨by decide,
    (materialize_nothing_selected [⟨0, [0, 1, 2]⟩] [staleItem]
      (by decide) (by decide)).1⟩

/- ------------------------------------------------------------------ -/
/- Claim C2.                                                          -/
/- ------------------------------------------------------------------ -/

/-- C2: for every mesh, every vertex index i whose entry list gives at
least two active group names, and every unordered pair of distinct
names a, b among them, the finished accumulator holds an entry keyed by
the canonically ordered pair whose vertex-index set contains i, and the
analyzer's emitted row list contains the rendering of that entry. -/
theorem analyze_completeness (m : Mesh) (prevList : List VertexOverlapItem)
    (i : Nat) (gs : List GroupEntry) (a b : String)
    (hv : m.vertices.get? i = some gs)
    (ha : a ∈ activeGroupNames m gs) (hb : b ∈ activeGroupNames m gs)
    (hne : a ≠ b) (hcnt : 2 ≤ (activeGroupNames m gs).length)
    (hg : m.vertexGroups ≠ []) :
    i ∈ (lookupOM (overlapsMap m) (canonicalPair a b)).getD [] ∧
    (canonicalPair a b,
      (lookupOM (overlapsMap m) (canonicalPair a b)).getD []) ∈ overlapsMap m ∧
    mkOverlapItem (canonicalPair a b)
      ((lookupOM (overlapsMap m) (canonicalPair a b)).getD []) ∈
      (analyze m prevList).2 := by
  have hkey : canonicalPair a b ∈ vertexPairs m gs := by
    unfold canonicalPair
    by_cases hle : strLe a b = true
    · rw [if_pos hle]
      exact mem_vertexPairs m gs ha hb hle hne
    · rw [if_neg hle]
      have hba : strLe b a = true := (strLe_total a b).resolve_left hle
      exact mem_vertexPairs m gs hb ha hba (Ne.symm hne)
  obtain ⟨vs, hvs, hi⟩ :=
    (lookupOM_overlapsMap_mem m (canonicalPair a b) i).mpr ⟨gs, hv, hkey⟩
  have hgetD : (lookupOM (overlapsMap m) (canonicalPair a b)).getD [] = vs := by
    rw [hvs]
    rfl
  rw [hgetD]
  have hmem : (canonicalPair a b, vs) ∈ overlapsMap m :=
    (mem_iff_lookupOM (keysNodup_overlapsMap m) _ _).mpr hvs
  refine ⟨hi, hmem, ?_⟩
  rw [analyze_of_groups m prevList hg]
  exact List.mem_map.mpr ⟨(canonicalPair a b, vs), hmem, rfl⟩

/-- Witness for C2 at the specification's example mesh: vertex 0 is
active in Hip and Spine, and the Hip-Spine entry holds index 0. -/
theorem analyze_completeness_witness :
    ("Hip" : String) ≠ "Spine" ∧
    (0 ∈ (lookupOM (overlapsMap exampleMesh)
        (canonicalPair "Hip" "Spine")).getD [] ∧
      (canonicalPair "Hip" "Spine",
        (lookupOM (overlapsMap exampleMesh)
          (canonicalPair "Hip" "Spine")).getD []) ∈ overlapsMap exampleMesh ∧
      mkOverlapItem (canonicalPair "Hip" "Spine")
        ((lookupOM (overlapsMap exampleMesh)
          (canonicalPair "Hip" "Spine")).getD []) ∈
        (analyze exampleMesh []).2) :=
  ⟨by decide,
    analyze_completeness exampleMesh [] 0 [⟨0, 1⟩, ⟨1, 1⟩] "Hip" "Spine"
      (by decide) (by decide) (by decide) (by decide) (by decide) (by decide)⟩

/- ------------------------------------------------------------------ -/
/- Claim C4.                                                          -/
/- ------------------------------------------------------------------ -/

/-- C4 counterexample: when the host supplies two distinct group
indices sharing the display name A, a vertex weighted in both makes the
analyzer enumerate the pair of A with itself, so the finished table and
the emitted rows carry a self-paired entry. -/
theorem analyze_self_pair_counterexample :
    overlapsMap dupNameMesh = [(("A", "A"), [0])] ∧
    (analyze dupNameMesh []).2 =
      [{ groups := "A + A", count := 1, verts := "0", selected := false }] ∧
    ("A", "A").1 = ("A", "A").2 :=
  ⟨by decide, by decide, rfl⟩

/-- C4 amended: for every vertex whose active-group-name list is free
of duplicate names, every enumerated pair draws both components from
that list, the two components differ, and no pair is enumerated twice;
when two distinct group indices share one display name a self-pair of
that name can be enumerated instead. -/
theorem analyze_pairs_distinct_of_nodup_names (m : Mesh)
    (gs : List GroupEntry) (hnd : (activeGroupNames m gs).Nodup) :
    List.Forall (fun p =>
      p.1 ∈ activeGroupNames m gs ∧ p.2 ∈ activeGroupNames m gs ∧
        p.1 ≠ p.2) (vertexPairs m gs) ∧
    (vertexPairs m gs).Nodup := by
  constructor
  · rw [List.forall_iff_forall_mem]
    intro p hp
    obtain ⟨h1, h2⟩ := vertexPairs_mem_active m gs p hp
    exact ⟨h1, h2, vertexPairs_distinct_of_nodup m gs hnd p hp⟩
  · exact vertexPairs_nodup_of_nodup m gs hnd

/-- Witness for the amended C4 at the example mesh's vertex 0, whose
active names Hip and Spine are duplicate-free. -/
theorem analyze_pairs_distinct_of_nodup_names_witness :
    (activeGroupNames exampleMesh [⟨0, 1⟩, ⟨1, 1⟩]).Nodup ∧
    (List.Forall (fun p =>
      p.1 ∈ activeGroupNames exampleMesh [⟨0, 1⟩, ⟨1, 1⟩] ∧
      p.2 ∈ activeGroupNames exampleMesh [⟨0, 1⟩, ⟨1, 1⟩] ∧
      p.1 ≠ p.2) (vertexPairs exampleMesh [⟨0, 1⟩, ⟨1, 1⟩]) ∧
    (vertexPairs exampleMesh [⟨0, 1⟩, ⟨1, 1⟩]).Nodup) :=
  ⟨by decide,
    analyze_pairs_distinct_of_nodup_names exampleMesh [⟨0, 1⟩, ⟨1, 1⟩]
      (by decide)⟩

/- ------------------------------------------------------------------ -/
/- Claim C5.                                                          -/
/- ------------------------------------------------------------------ -/

/-- C5: the emitted table is the rendering of the accumulator, every
accumulator key is canonically ordered under the code-point order, and
no two accumulator entries carry the same unordered group-name pair, so
a pair and its swap always land in one entry. -/
theorem analyze_unordered_pair_unique (m : Mesh)
    (prevList : List VertexOverlapItem) (hg : m.vertexGroups ≠ []) :
    (analyze m prevList).2 =
      (overlapsMap m).map (fun p => mkOverlapItem p.1 p.2) ∧
    List.Forall (fun e => strLe e.1.1 e.1.2 = true) (overlapsMap m) ∧
    List.Pairwise (fun e1 e2 => ¬ sameUnorderedPair e1.1 e2.1)
      (overlapsMap m) := by
  refine ⟨congrArg Prod.snd (analyze_of_groups m prevList hg), ?_, ?_⟩
  · rw [List.forall_iff_forall_mem]
    intro e he
    exact (overlapsMap_entries m e he).2.2
  · have hknd := keysNodup_overlapsMap m
    have hpw : List.Pairwise
        (fun e1 e2 : GroupPair × List Nat => e1.1 ≠ e2.1) (overlapsMap m) :=
      List.pairwise_map.mp hknd
    refine List.Pairwise.imp_of_mem ?_ hpw
    intro e1 e2 h1 h2 hne hsame
    have o1 := (overlapsMap_entries m e1 h1).2.2
    have o2 := (overlapsMap_entries m e2 h2).2.2
    rcases hsame with ⟨hfst, hsnd⟩ | ⟨hfst, hsnd⟩
    · exact hne (Prod.ext_iff.mpr ⟨hfst, hsnd⟩)
    · have h4 : strLe e1.1.2 e1.1.1 = true := by
        rw [← hsnd, ← hfst] at o2
        exact o2
      have heq : e1.1.1 = e1.1.2 := strLe_antisymm o1 h4
      exact hne (Prod.ext_iff.mpr ⟨heq.trans hsnd, heq.symm.trans hfst⟩)

/-- Witness for C5 at the example mesh, whose table has the two entries
Hip-Spine and Spine-Tail. -/
theorem analyze_unordered_pair_unique_witness :
    exampleMesh.vertexGroups ≠ [] ∧
    ((analyze exampleMesh []).2 =
      (overlapsMap exampleMesh).map (fun p => mkOverlapItem p.1 p.2) ∧
    List.Forall (fun e => strLe e.1.1 e.1.2 = true) (overlapsMap exampleMesh) ∧
    List.Pairwise (fun e1 e2 => ¬ sameUnorderedPair e1.1 e2.1)
      (overlapsMap exampleMesh)) :=
  ⟨by decide, analyze_unordered_pair_unique exampleMesh [] (by decide)⟩

/- ------------------------------------------------------------------ -/
/- Claim C6.                                                          -/
/- ------------------------------------------------------------------ -/

/-- C6: a vertex whose active-group count is below two appears in the
vertex-index set of no entry of the finished accumulator, whose
rendering is the emitted row list. -/
theorem analyze_minimality (m : Mesh) (prevList : List VertexOverlapItem)
    (i : Nat) (gs : List GroupEntry)
    (hv : m.vertices.get? i = some gs)
    (hcnt : (activeGroupNames m gs).length < 2)
    (hg : m.vertexGroups ≠ []) :
    (analyze m prevList).2 =
      (overlapsMap m).map (fun p => mkOverlapItem p.1 p.2) ∧
    List.Forall (fun e => i ∉ e.2) (overlapsMap m) := by
  refine ⟨congrArg Prod.snd (analyze_of_groups m prevList hg), ?_⟩
  rw [List.forall_iff_forall_mem]
  rintro ⟨k, vs⟩ he hi
  have hlook := (mem_iff_lookupOM (keysNodup_overlapsMap m) k vs).mp he
  obtain ⟨gs2, hv2, hk⟩ :=
    (lookupOM_overlapsMap_mem m k i).mp ⟨vs, hlook, hi⟩
  rw [hv] at hv2
  obtain rfl : gs = gs2 := by injection hv2
  rw [vertexPairs_eq_nil m gs hcnt] at hk
  exact absurd hk (List.not_mem_nil k)

/-- Witness for C6 at the example mesh's vertex 1, active in Hip only:
it appears in no entry. -/
theorem analyze_minimality_witness :
    (activeGroupNames exampleMesh [⟨0, 1⟩]).length < 2 ∧
    ((analyze exampleMesh []).2 =
      (overlapsMap exampleMesh).map (fun p => mkOverlapItem p.1 p.2) ∧
    List.Forall (fun e => 1 ∉ e.2) (overlapsMap exampleMesh)) :=
  ⟨by decide,
    analyze_minimality exampleMesh [] 1 [⟨0, 1⟩] (by decide) (by decide)
      (by decide)⟩

/- ------------------------------------------------------------------ -/
/- Claim C8.                                                          -/
/- ------------------------------------------------------------------ -/

/-- C8: the emitted row list renders the accumulator, and every row's
count field equals the length of the entry's duplicate-free
vertex-index list, that is the cardinality of its vertex-index set. -/
theorem analyze_count_eq_card (m : Mesh)
    (prevList : List VertexOverlapItem) (hg : m.vertexGroups ≠ []) :
    (analyze m prevList).2 =
      (overlapsMap m).map (fun p => mkOverlapItem p.1 p.2) ∧
    List.Forall (fun p =>
      (mkOverlapItem p.1 p.2).count = p.2.length ∧ p.2.Nodup)
      (overlapsMap m) := by
  refine ⟨congrArg Prod.snd (analyze_of_groups m prevList hg), ?_⟩
  rw [List.forall_iff_forall_mem]
  intro p hp
  refine ⟨?_, (overlapsMap_entries m p hp).2.1⟩
  show (List.insertionSort (fun a b => a ≤ b) p.2).length = p.2.length
  exact (List.perm_insertionSort _ _).length_eq

/-- Witness for C8 at the example mesh. -/
theorem analyze_count_eq_card_witness :
    exampleMesh.vertexGroups ≠ [] ∧
    ((analyze exampleMesh []).2 =
      (overlapsMap exampleMesh).map (fun p => mkOverlapItem p.1 p.2) ∧
    List.Forall (fun p =>
      (mkOverlapItem p.1 p.2).count = p.2.length ∧ p.2.Nodup)
      (overlapsMap exampleMesh)) :=
  ⟨by decide, analyze_count_eq_card exampleMesh [] (by decide)⟩

/- ------------------------------------------------------------------ -/
/- Claim C9.                                                          -/
/- ------------------------------------------------------------------ -/

/-- C9: every emitted row labels its entry with the two group names
joined around a plus sign, and its vertex string is the comma-joined
rendering of the entry's vertex indices arranged in strictly ascending
order with no duplicate, a permutation of the entry's index set. -/
theorem analyze_display_form (m : Mesh)
    (prevList : List VertexOverlapItem) (hg : m.vertexGroups ≠ []) :
    (analyze m prevList).2 =
      (overlapsMap m).map (fun p => mkOverlapItem p.1 p.2) ∧
    List.Forall (fun p =>
      (mkOverlapItem p.1 p.2).groups = p.1.1 ++ " + " ++ p.1.2 ∧
      (mkOverlapItem p.1 p.2).verts = String.intercalate ","
        ((List.insertionSort (fun a b => a ≤ b) p.2).map
          (fun n => toString n)) ∧
      (List.insertionSort (fun a b => a ≤ b) p.2).Perm p.2 ∧
      List.Sorted (fun a b => a < b)
        (List.insertionSort (fun a b => a ≤ b) p.2)) (overlapsMap m) := by
  refine ⟨congrArg Prod.snd (analyze_of_groups m prevList hg), ?_⟩
  rw [List.forall_iff_forall_mem]
  intro p hp
  exact ⟨rfl, rfl, List.perm_insertionSort _ _,
    sorted_lt_insertionSort p.2 (overlapsMap_entries m p hp).2.1⟩

/-- Witness for C9 at the example mesh. -/
theorem analyze_display_form_witness :
    exampleMesh.vertexGroups ≠ [] ∧
    ((analyze exampleMesh []).2 =
      (overlapsMap exampleMesh).map (fun p => mkOverlapItem p.1 p.2) ∧
    List.Forall (fun p =>
      (mkOverlapItem p.1 p.2).groups = p.1.1 ++ " + " ++ p.1.2 ∧
      (mkOverlapItem p.1 p.2).verts = String.intercalate ","
        ((List.insertionSort (fun a b => a ≤ b) p.2).map
          (fun n => toString n)) ∧
      (List.insertionSort (fun a b => a ≤ b) p.2).Perm p.2 ∧
      List.Sorted (fun a b => a < b)
        (List.insertionSort (fun a b => a ≤ b) p.2))
      (overlapsMap exampleMesh)) :=
  ⟨by decide, analyze_display_form exampleMesh [] (by decide)⟩

/- ------------------------------------------------------------------ -/
/- Claim C10.                                                         -/
/- ------------------------------------------------------------------ -/

/-- C10: every accumulator entry is created while a vertex index is
being accumulated into it, so its index set is non-empty, every emitted
row's count is at least 1, and every row is created unselected. -/
theorem analyze_entry_nonempty_unselected (m : Mesh)
    (prevList : List VertexOverlapItem) (hg : m.vertexGroups ≠ []) :
    (analyze m prevList).2 =
      (overlapsMap m).map (fun p => mkOverlapItem p.1 p.2) ∧
    List.Forall (fun p =>
      p.2 ≠ [] ∧ 1 ≤ (mkOverlapItem p.1 p.2).count ∧
        (mkOverlapItem p.1 p.2).selected = false) (overlapsMap m) := by
  refine ⟨congrArg Prod.snd (analyze_of_groups m prevList hg), ?_⟩
  rw [List.forall_iff_forall_mem]
  intro p hp
  have hne := (overlapsMap_entries m p hp).1
  refine ⟨hne, ?_, rfl⟩
  show 1 ≤ (List.insertionSort (fun a b => a ≤ b) p.2).length
  rw [(List.perm_insertionSort (fun a b : Nat => a ≤ b) p.2).length_eq]
  exact Nat.one_le_iff_ne_zero.mpr (fun h0 => hne (List.length_eq_zero.mp h0))

/-- Witness for C10 at the example mesh. -/
theorem analyze_entry_nonempty_unselected_witness :
    exampleMesh.vertexGroups ≠ [] ∧
    ((analyze exampleMesh []).2 =
      (overlapsMap exampleMesh).map (fun p => mkOverlapItem p.1 p.2) ∧
    List.Forall (fun p =>
      p.2 ≠ [] ∧ 1 ≤ (mkOverlapItem p.1 p.2).count ∧
        (mkOverlapItem p.1 p.2).selected = false)
      (overlapsMap exampleMesh)) :=
  ⟨by decide, analyze_entry_nonempty_unselected exampleMesh [] (by decide)⟩
